import Mathlib

/-!
Shallow embedding of the asynchronous task-execution core of `src/config.js`:
`PromisePool`, `AsyncQueue`, `RetryPolicy`, `Timeout`, `CachePromise`,
`AsyncIterator.batch`, plus the `Promise.all` / `Promise.race` combinators the
code relies on.  Stateful classes become explicit state machines driven by
event sequences; asynchronous settlement of a running task is an explicit
`settle` event.  Pure functions become Lean functions.
-/

namespace PromisePool

/--
State of a `PromisePool` (src/config.js): `concurrency` is the ceiling passed
to the constructor, `running` the current running count, `queue` the ids of
queued tasks in FIFO order.  `started` is the observation trace of task ids in
the order `_process` started them, and `nextId` assigns ids `0,1,2,...` to
tasks in submission order.
-/
structure State where
  concurrency : Nat
  running : Nat
  queue : List Nat
  started : List Nat
  nextId : Nat
deriving Repr, DecidableEq

/--
The `while` loop of `PromisePool._process`: while `running < concurrency` and
the queue is nonempty, increment `running`, shift the queue head and start it.
`fuel` bounds the iteration count; each iteration consumes one queue element,
so `queue.length` fuel is always enough (see `processGo_fuel`).
-/
def processGo (fuel : Nat) (s : State) : State :=
  match fuel with
  | 0 => s
  | fuel + 1 =>
    if s.running < s.concurrency then
      match s.queue with
      | [] => s
      | t :: rest =>
        processGo fuel { s with running := s.running + 1, queue := rest,
                                started := s.started ++ [t] }
    else s

/-- `PromisePool._process` (src/config.js). -/
def process (s : State) : State :=
  processGo s.queue.length s

/--
Events driving a pool: `add` is a call to `PromisePool.add` (the new task gets
id `nextId`); `settle` is the settlement of one running task, whose `finally`
handler decrements `running` and re-runs `_process`.  A `settle` with nothing
running cannot occur and is a no-op.
-/
inductive Event where
  | add : Event
  | settle : Event
deriving Repr, DecidableEq

/-- One event applied to a pool state. -/
def step (s : State) : Event → State
  | .add => process { s with queue := s.queue ++ [s.nextId], nextId := s.nextId + 1 }
  | .settle =>
    if 0 < s.running then process { s with running := s.running - 1 } else s

/-- The state of a fresh pool `new PromisePool(c)`. -/
def initState (c : Nat) : State :=
  { concurrency := c, running := 0, queue := [], started := [], nextId := 0 }

/-- The pool state after an event sequence, from a fresh pool with ceiling `c`. -/
def run (c : Nat) (es : List Event) : State :=
  es.foldl step (initState c)

/--
Invariant of reachable pool states: the start trace and the waiting queue are
each sorted by submission id, every started id precedes every queued id, all
ids are below `nextId`, and every id below `nextId` is accounted for (started
or still queued).
-/
def Inv (s : State) : Prop :=
  s.started.Sorted (· < ·) ∧ s.queue.Sorted (· < ·) ∧
    (∀ a ∈ s.started, ∀ b ∈ s.queue, a < b) ∧
    (∀ x ∈ s.started, x < s.nextId) ∧ (∀ x ∈ s.queue, x < s.nextId) ∧
    (∀ x, x < s.nextId → x ∈ s.started ∨ x ∈ s.queue)

end PromisePool

namespace AsyncQueue

/--
State of an `AsyncQueue` (src/config.js): `tasks` is the waiting queue of task
ids in FIFO order and `processing` the serializing flag.  `current` holds the
ids of tasks dequeued by `_processNext` and not yet settled (the code keeps the
dequeued item in a local variable across its `await`).  `started` and
`settledL` are observation traces: the ids in start order and in settlement
order.  `nextId` assigns ids `0,1,2,...` in submission order.
-/
structure State where
  tasks : List Nat
  processing : Bool
  current : List Nat
  started : List Nat
  settledL : List Nat
  nextId : Nat
deriving Repr, DecidableEq

/--
`AsyncQueue._processNext` (src/config.js) up to its first suspension point: if
the flag is set or the queue is empty, return; otherwise set the flag, shift
the queue head and start it (the `await` of the task is the suspension; the
rest of `_processNext` runs at the task's settlement, see `step`).
-/
def processNext (s : State) : State :=
  if s.processing || s.tasks.isEmpty then s
  else
    match s.tasks with
    | [] => s
    | t :: rest =>
      { s with processing := true, tasks := rest, current := s.current ++ [t],
               started := s.started ++ [t] }

/--
Events driving an `AsyncQueue`: `add` is a call to `AsyncQueue.add` (the task
gets id `nextId`, is pushed, and `_processNext` runs); `settle` is the
settlement of the task `_processNext` is awaiting: its handle is settled, the
`finally` clause clears the flag and re-runs `_processNext`.  A `settle` with
no task in flight cannot occur and is a no-op.
-/
inductive Event where
  | add : Event
  | settle : Event
deriving Repr, DecidableEq

/-- One event applied to a queue state. -/
def step (s : State) : Event → State
  | .add =>
    processNext { s with tasks := s.tasks ++ [s.nextId], nextId := s.nextId + 1 }
  | .settle =>
    match s.current with
    | [] => s
    | t :: rest =>
      processNext { s with processing := false, current := rest,
                           settledL := s.settledL ++ [t] }

/-- `AsyncQueue.clear` (src/config.js): `this.tasks = []`. -/
def clear (s : State) : State :=
  { s with tasks := [] }

/-- The state of a fresh `new AsyncQueue()`. -/
def initState : State :=
  { tasks := [], processing := false, current := [], started := [],
    settledL := [], nextId := 0 }

/-- The queue state after an event sequence, from a fresh queue. -/
def run (es : List Event) : State :=
  es.foldl step initState

/--
Invariant of reachable `AsyncQueue` states: at most one task is in flight, the
`processing` flag is set exactly while one is, the start trace is the
settlement trace followed by the in-flight task, traces and queue are sorted
by submission id, every started id precedes every queued id, all ids are below
`nextId`, and every id below `nextId` is accounted for.
-/
def Inv (s : State) : Prop :=
  s.current.length ≤ 1 ∧ (s.processing = true ↔ s.current ≠ []) ∧
    s.started = s.settledL ++ s.current ∧
    s.started.Sorted (· < ·) ∧ s.tasks.Sorted (· < ·) ∧
    (∀ a ∈ s.started, ∀ b ∈ s.tasks, a < b) ∧
    (∀ x ∈ s.started, x < s.nextId) ∧ (∀ x ∈ s.tasks, x < s.nextId) ∧
    (∀ x, x < s.nextId → x ∈ s.started ∨ x ∈ s.tasks)

end AsyncQueue

namespace RetryPolicy

/--
The retry loop of `RetryPolicy.execute` (src/config.js).  The task is modelled
as `fn : Nat → Except E A`, giving the outcome of each attempt (attempt indices
`0,1,2,...`); `remaining` is `maxRetries - i`, `currentDelay` the current
backoff delay.  Returns the overall outcome, the number of attempts made, and
the list of delays slept (each `await this._sleep(currentDelay)`), in order.
-/
def executeGo (fn : Nat → Except E A) (backoff : Nat) :
    Nat → Nat → Nat → Except E A × Nat × List Nat
  | remaining, currentDelay, attempt =>
    match fn attempt with
    | .ok v => (.ok v, attempt + 1, [])
    | .error e =>
      match remaining with
      | 0 => (.error e, attempt + 1, [])
      | r + 1 =>
        let rec' := executeGo fn backoff r (currentDelay * backoff) (attempt + 1)
        (rec'.1, rec'.2.1, currentDelay :: rec'.2.2)

/--
`RetryPolicy.execute` (src/config.js) for a policy
`new RetryPolicy(maxRetries, delay, backoff)`: runs `fn` up to
`maxRetries + 1` times, sleeping the current delay and multiplying it by
`backoff` between consecutive attempts, and surfaces the last error when every
attempt fails.
-/
def execute (maxRetries delay backoff : Nat) (fn : Nat → Except E A) :
    Except E A × Nat × List Nat :=
  executeGo fn backoff maxRetries delay 0

end RetryPolicy

namespace Timeout

/--
Outcome of `Timeout.promise`: the wrapped promise's value or error, or the
timeout rejection `new Error('Promise timed out')`.
-/
inductive Result (E A : Type) where
  | ok : A → Result E A
  | err : E → Result E A
  | timedOut : Result E A
deriving Repr, DecidableEq

/-- The settlement of the wrapped promise, as a race outcome. -/
def toResult : Except E A → Result E A
  | .ok a => .ok a
  | .error e => .err e

/--
`Timeout.promise(promise, timeoutMs)` (src/config.js):
`Promise.race([promise, timer])` where the timer rejects with the timeout
error after `timeoutMs`.  The wrapped promise settles at `taskTime` with
`task`; the race settles with whichever settles first, the first-listed
promise (the task) winning an exact tie.  Returns settlement time and outcome.
-/
def promise (taskTime : Nat) (task : Except E A) (timeoutMs : Nat) :
    Nat × Result E A :=
  if taskTime ≤ timeoutMs then (taskTime, toResult task)
  else (timeoutMs, Result.timedOut)

end Timeout

namespace CachePromise

/--
The `Map` of a `CachePromise` (src/config.js), as an association list keyed by
`K`: each entry is `(key, value, expiry)` with `expiry = none` for the `null`
expiry.  A JS `Map` never holds two entries with the same key.
-/
abbrev Cache (K V : Type) := List (K × V × Option Nat)

/-- `Map.get` / `Map.has` on the cache: the entry stored for `k`, if any. -/
def mapGet [DecidableEq K] : Cache K V → K → Option (V × Option Nat)
  | [], _ => none
  | (k', v, e) :: rest, k => if k' = k then some (v, e) else mapGet rest k

/-- `Map.set` on the cache: replaces the entry for `k` or appends a new one. -/
def mapSet [DecidableEq K] : Cache K V → K → V × Option Nat → Cache K V
  | [], k, b => [(k, b.1, b.2)]
  | (k', v, e) :: rest, k, b =>
    if k' = k then (k, b.1, b.2) :: rest else (k', v, e) :: mapSet rest k b

/-- `Map.delete` on the cache: removes the entry for `k`, if any. -/
def mapDelete [DecidableEq K] : Cache K V → K → Cache K V
  | [], _ => []
  | (k', v, e) :: rest, k =>
    if k' = k then rest else (k', v, e) :: mapDelete rest k

/--
The freshness test `!cached.expiry || Date.now() < cached.expiry` of
`CachePromise.memoize`, with `now` for `Date.now()`.
-/
def isFresh (now : Nat) : Option Nat → Bool
  | none => true
  | some t => decide (now < t)

/--
The tail of `CachePromise.memoize` from `const value = await ...` on: invoke
the task, store its value under `key` with expiry `Date.now() + ttl` (or
`null` when `ttl` is falsy, i.e. `0` here), and return it; a failing task
propagates its error and stores nothing.  Returns the outcome, the new cache,
and `true` for "the task was invoked".
-/
def memoizeCompute [DecidableEq K] (c : Cache K V) (key : K) (fn : Except E V)
    (ttl now : Nat) : Except E V × Cache K V × Bool :=
  match fn with
  | .error e => (.error e, c, true)
  | .ok v =>
    (.ok v, mapSet c key (v, if ttl = 0 then none else some (now + ttl)), true)

/--
`CachePromise.memoize(key, fn, ttl)` (src/config.js) at current time `now`:
a stored entry that is fresh is returned without invoking the task; an expired
entry is deleted first; otherwise the task runs and its value is stored.
Returns the outcome, the new cache, and whether the task was invoked.
-/
def memoize [DecidableEq K] (c : Cache K V) (key : K) (fn : Except E V)
    (ttl now : Nat) : Except E V × Cache K V × Bool :=
  match mapGet c key with
  | some (v, expiry) =>
    if isFresh now expiry then (.ok v, c, false)
    else memoizeCompute (mapDelete c key) key fn ttl now
  | none => memoizeCompute c key fn ttl now

end CachePromise

namespace AsyncIterator

/--
The loop of `AsyncIterator.batch` (src/config.js): push each item onto the
current group, emitting the group and starting a fresh one whenever it reaches
`batchSize`; after the source ends, emit the leftover group if nonempty.
`acc` is the group under construction.
-/
def batchGo (batchSize : Nat) (acc : List α) : List α → List (List α)
  | [] => if acc.length > 0 then [acc] else []
  | x :: xs =>
    if (acc ++ [x]).length = batchSize then (acc ++ [x]) :: batchGo batchSize [] xs
    else batchGo batchSize (acc ++ [x]) xs

/--
`AsyncIterator.batch(asyncIterable, batchSize)` (src/config.js) on a source
that yields the elements of `l` in order.
-/
def batch (l : List α) (batchSize : Nat) : List (List α) :=
  batchGo batchSize [] l

end AsyncIterator

namespace PromiseJs

/--
The earliest rejection among a list of settlements `(time, outcome)` — the
rejection `Promise.all` adopts.  Earlier settlement times win; on a tie the
earlier-listed promise wins.
-/
def firstFailure : List (Nat × Except E A) → Option (Nat × E)
  | [] => none
  | (_, .ok _) :: rest => firstFailure rest
  | (t, .error e) :: rest =>
    match firstFailure rest with
    | none => some (t, e)
    | some (t', e') => if t' < t then some (t', e') else some (t, e)

/-- The time at which the last of the settlements `hs` occurs. -/
def lastSettleTime (hs : List (Nat × Except E A)) : Nat :=
  hs.foldl (fun m h => max m h.1) 0

/--
`Promise.all(hs)` over settlements `(time, outcome)`: if every promise
fulfills, it fulfills with the list of values once the last one has settled;
otherwise it rejects with the earliest rejection, at that rejection's time.
`PromisePool.execute(tasks, concurrency)` (src/config.js) returns exactly
`Promise.all` of the handles `pool.add(task)`, each of which settles with its
task's outcome at some time determined by the pool schedule.
-/
def promiseAll (hs : List (Nat × Except E A)) : Nat × Except E (List A) :=
  match firstFailure hs with
  | some (t, e) => (t, .error e)
  | none => (lastSettleTime hs, .ok (hs.filterMap fun h => h.2.toOption))

end PromiseJs

/-! ## Pool: ceiling invariant -/

theorem PromisePool.processGo_fuel (fuel : Nat) (s : PromisePool.State)
    (h : s.queue.length ≤ fuel) :
    PromisePool.processGo fuel s = PromisePool.processGo s.queue.length s := by
  induction fuel generalizing s with
  | zero =>
    have h0 : s.queue.length = 0 := Nat.le_zero.mp h
    simp [PromisePool.processGo, h0]
  | succ n ih =>
    cases hq : s.queue with
    | nil => simp [PromisePool.processGo, hq]
    | cons t rest =>
      by_cases hr : s.running < s.concurrency
      · have hlen : rest.length ≤ n := by
          rw [hq] at h
          simpa using Nat.le_of_succ_le_succ h
        simp only [PromisePool.processGo, hq, hr, if_true, List.length_cons]
        exact ih _ (by simpa using hlen)
      · simp [PromisePool.processGo, hq, hr]

theorem PromisePool.processGo_concurrency (fuel : Nat) (s : PromisePool.State) :
    (PromisePool.processGo fuel s).concurrency = s.concurrency := by
  induction fuel generalizing s with
  | zero => rfl
  | succ n ih =>
    by_cases hr : s.running < s.concurrency
    · cases hq : s.queue with
      | nil => simp [PromisePool.processGo, hq, hr]
      | cons t rest => simp [PromisePool.processGo, hq, hr, ih]
    · simp [PromisePool.processGo, hr]

theorem PromisePool.processGo_running_le (fuel : Nat) (s : PromisePool.State)
    (h : s.running ≤ s.concurrency) :
    (PromisePool.processGo fuel s).running ≤ (PromisePool.processGo fuel s).concurrency := by
  induction fuel generalizing s with
  | zero => simpa [PromisePool.processGo] using h
  | succ n ih =>
    by_cases hr : s.running < s.concurrency
    · cases hq : s.queue with
      | nil => simpa [PromisePool.processGo, hq, hr] using h
      | cons t rest =>
        simp only [PromisePool.processGo, hq, hr, if_true]
        exact ih _ (by simpa using Nat.succ_le_of_lt hr)
    · simpa [PromisePool.processGo, hr] using h

theorem PromisePool.process_running_le (s : PromisePool.State)
    (h : s.running ≤ s.concurrency) :
    (PromisePool.process s).running ≤ (PromisePool.process s).concurrency :=
  PromisePool.processGo_running_le _ _ h

theorem PromisePool.step_running_le (s : PromisePool.State) (e : PromisePool.Event)
    (h : s.running ≤ s.concurrency) :
    (PromisePool.step s e).running ≤ (PromisePool.step s e).concurrency := by
  cases e with
  | add => exact PromisePool.process_running_le _ h
  | settle =>
    simp only [PromisePool.step]
    by_cases hr : 0 < s.running
    · rw [if_pos hr]
      exact PromisePool.process_running_le _ (Nat.le_trans (Nat.sub_le _ _) h)
    · rw [if_neg hr]
      exact h

theorem PromisePool.step_concurrency (s : PromisePool.State) (e : PromisePool.Event) :
    (PromisePool.step s e).concurrency = s.concurrency := by
  cases e with
  | add => exact PromisePool.processGo_concurrency _ _
  | settle =>
    simp only [PromisePool.step]
    by_cases hr : 0 < s.running
    · rw [if_pos hr]
      exact PromisePool.processGo_concurrency _ _
    · rw [if_neg hr]

theorem PromisePool.foldl_running_le (s : PromisePool.State) (es : List PromisePool.Event)
    (h : s.running ≤ s.concurrency) :
    (es.foldl PromisePool.step s).running ≤ (es.foldl PromisePool.step s).concurrency := by
  induction es generalizing s with
  | nil => exact h
  | cons e rest ih => exact ih _ (PromisePool.step_running_le s e h)

theorem PromisePool.foldl_concurrency (s : PromisePool.State) (es : List PromisePool.Event) :
    (es.foldl PromisePool.step s).concurrency = s.concurrency := by
  induction es generalizing s with
  | nil => rfl
  | cons e rest ih => rw [List.foldl_cons, ih, PromisePool.step_concurrency]

theorem PromisePool.run_concurrency (c : Nat) (es : List PromisePool.Event) :
    (PromisePool.run c es).concurrency = c :=
  PromisePool.foldl_concurrency (PromisePool.initState c) es

/--
**C1.** For every pool created with concurrency `C ≥ 1` and every sequence of
add-task and task-settlement events, the `PromisePool`'s running count never
exceeds `C`: at no point are more than `C` submitted tasks started but not yet
settled.
-/
theorem PromisePool.running_never_exceeds_concurrency (c : Nat) (hc : 1 ≤ c)
    (es : List PromisePool.Event) : (PromisePool.run c es).running ≤ c := by
  have h := PromisePool.foldl_running_le (PromisePool.initState c) es (Nat.zero_le _)
  rwa [PromisePool.foldl_concurrency] at h

/--
Witness for C1: a pool with ceiling 2 given five submissions and one
settlement is running exactly 2 tasks, within the bound.
-/
theorem PromisePool.running_never_exceeds_concurrency_witness :
    1 ≤ 2 ∧
      (PromisePool.run 2 [.add, .add, .add, .add, .settle, .add]).running ≤ 2 ∧
      (PromisePool.run 2 [.add, .add, .add, .add, .settle, .add]).running = 2 :=
  ⟨by decide,
   PromisePool.running_never_exceeds_concurrency 2 (by decide) _,
   by decide⟩

/-! ## Pool: FIFO start order -/

theorem PromisePool.processGo_inv (fuel : Nat) (s : PromisePool.State)
    (h : PromisePool.Inv s) : PromisePool.Inv (PromisePool.processGo fuel s) := by
  induction fuel generalizing s with
  | zero => simpa [PromisePool.processGo] using h
  | succ n ih =>
    by_cases hr : s.running < s.concurrency
    · cases hq : s.queue with
      | nil => simpa [PromisePool.processGo, hq, hr] using h
      | cons t rest =>
        simp only [PromisePool.processGo, hq, hr, if_true]
        apply ih
        obtain ⟨hss, hsq, hcross, hbs, hbq, hcomp⟩ := h
        rw [hq] at hsq hcross hbq hcomp
        have hts := List.sorted_cons.mp hsq
        refine ⟨?_, hts.2, ?_, ?_, ?_, ?_⟩
        · refine List.pairwise_append.mpr ⟨hss, List.sorted_singleton t, ?_⟩
          intro a ha b hb
          rw [List.mem_singleton] at hb
          subst hb
          exact hcross a ha b (List.mem_cons_self _ _)
        · intro a ha b hb
          rcases List.mem_append.mp ha with ha | ha
          · exact hcross a ha b (List.mem_cons_of_mem _ hb)
          · rw [List.mem_singleton] at ha
            subst ha
            exact hts.1 b hb
        · intro x hx
          rcases List.mem_append.mp hx with hx | hx
          · exact hbs x hx
          · rw [List.mem_singleton] at hx
            subst hx
            exact hbq x (List.mem_cons_self _ _)
        · intro x hx
          exact hbq x (List.mem_cons_of_mem _ hx)
        · intro x hx
          rcases hcomp x hx with h1 | h1
          · exact Or.inl (List.mem_append.mpr (Or.inl h1))
          · rcases List.mem_cons.mp h1 with h1 | h1
            · subst h1
              exact Or.inl (List.mem_append.mpr (Or.inr (List.mem_singleton.mpr rfl)))
            · exact Or.inr h1
    · simpa [PromisePool.processGo, hr] using h

theorem PromisePool.step_inv (s : PromisePool.State) (e : PromisePool.Event)
    (h : PromisePool.Inv s) : PromisePool.Inv (PromisePool.step s e) := by
  cases e with
  | add =>
    apply PromisePool.processGo_inv
    obtain ⟨hss, hsq, hcross, hbs, hbq, hcomp⟩ := h
    refine ⟨hss, ?_, ?_, ?_, ?_, ?_⟩
    · refine List.pairwise_append.mpr ⟨hsq, List.sorted_singleton _, ?_⟩
      intro b hb c hc
      rw [List.mem_singleton] at hc
      subst hc
      exact hbq b hb
    · intro a ha b hb
      rcases List.mem_append.mp hb with hb | hb
      · exact hcross a ha b hb
      · rw [List.mem_singleton] at hb
        subst hb
        exact hbs a ha
    · intro x hx
      exact Nat.lt_succ_of_lt (hbs x hx)
    · intro x hx
      rcases List.mem_append.mp hx with hx | hx
      · exact Nat.lt_succ_of_lt (hbq x hx)
      · rw [List.mem_singleton] at hx
        subst hx
        exact Nat.lt_succ_self _
    · intro x hx
      rcases Nat.lt_succ_iff_lt_or_eq.mp hx with hx | hx
      · rcases hcomp x hx with h1 | h1
        · exact Or.inl h1
        · exact Or.inr (List.mem_append.mpr (Or.inl h1))
      · subst hx
        exact Or.inr (List.mem_append.mpr (Or.inr (List.mem_singleton.mpr rfl)))
  | settle =>
    simp only [PromisePool.step]
    by_cases hr : 0 < s.running
    · rw [if_pos hr]
      exact PromisePool.processGo_inv _ _ h
    · rw [if_neg hr]
      exact h

theorem PromisePool.initState_inv (c : Nat) : PromisePool.Inv (PromisePool.initState c) := by
  refine ⟨?_, ?_, ?_, ?_, ?_, ?_⟩ <;> simp [PromisePool.initState]

theorem PromisePool.run_inv (c : Nat) (es : List PromisePool.Event) :
    PromisePool.Inv (PromisePool.run c es) := by
  have h : ∀ (s : PromisePool.State), PromisePool.Inv s →
      PromisePool.Inv (es.foldl PromisePool.step s) := by
    induction es with
    | nil => exact fun s hs => hs
    | cons e rest ih => exact fun s hs => ih _ (PromisePool.step_inv s e hs)
  exact h _ (PromisePool.initState_inv c)

/--
**C8.** For every pool and every two tasks A and B where A was added before B
(id of A < id of B), the pool never starts B before it has started A: the
start trace lists task ids in strict FIFO submission order, and whenever B is
in the start trace so is A (this holds after every event sequence, hence at
every point in time).
-/
theorem PromisePool.tasks_start_in_fifo_order (c : Nat) (es : List PromisePool.Event) :
    (PromisePool.run c es).started.Sorted (· < ·) ∧
      ∀ i j : Nat, i < j → j ∈ (PromisePool.run c es).started →
        i ∈ (PromisePool.run c es).started := by
  obtain ⟨hss, hsq, hcross, hbs, hbq, hcomp⟩ := PromisePool.run_inv c es
  refine ⟨hss, ?_⟩
  intro i j hij hj
  have hin : i < (PromisePool.run c es).nextId := Nat.lt_trans hij (hbs j hj)
  rcases hcomp i hin with h1 | h1
  · exact h1
  · exact absurd (hcross j hj i h1) (Nat.lt_asymm hij)

/--
Witness for C8: with ceiling 2 and three submissions, task 1 has started and
the theorem yields that task 0 (submitted earlier) has started too.
-/
theorem PromisePool.tasks_start_in_fifo_order_witness :
    (0 : Nat) < 1 ∧ 1 ∈ (PromisePool.run 2 [.add, .add, .add]).started ∧
      0 ∈ (PromisePool.run 2 [.add, .add, .add]).started :=
  ⟨by decide, by decide,
   (PromisePool.tasks_start_in_fifo_order 2 [.add, .add, .add]).2 0 1
     (by decide) (by decide)⟩

/-! ## Serial queue: one-at-a-time FIFO execution -/

theorem AsyncQueue.processNext_inv (s : AsyncQueue.State) (h : AsyncQueue.Inv s) :
    AsyncQueue.Inv (AsyncQueue.processNext s) := by
  by_cases hguard : (s.processing || s.tasks.isEmpty) = true
  · simpa [AsyncQueue.processNext, hguard] using h
  · have hp : s.processing = false := by
      cases hsp : s.processing
      · rfl
      · simp [hsp] at hguard
    cases hq : s.tasks with
    | nil => simp [hq, List.isEmpty_nil] at hguard
    | cons t rest =>
      have hred : AsyncQueue.processNext s =
          { s with processing := true, tasks := rest,
                   current := s.current ++ [t], started := s.started ++ [t] } := by
        simp [AsyncQueue.processNext, hq, hp]
      rw [hred]
      obtain ⟨hlen, hflag, heq, hss, hst, hcross, hbs, hbt, hcomp⟩ := h
      have hcur : s.current = [] := by
        by_contra hne
        rw [hflag.mpr hne] at hp
        exact absurd hp (by decide)
      rw [hq] at hst hcross hbt hcomp
      have hts := List.sorted_cons.mp hst
      refine ⟨by simp [hcur], by simp, ?_, ?_, hts.2, ?_, ?_, ?_, ?_⟩
      · rw [heq, hcur]
        simp
      · refine List.pairwise_append.mpr ⟨hss, List.sorted_singleton t, ?_⟩
        intro a ha b hb
        rw [List.mem_singleton] at hb
        subst hb
        exact hcross a ha b (List.mem_cons_self _ _)
      · intro a ha b hb
        rcases List.mem_append.mp ha with ha | ha
        · exact hcross a ha b (List.mem_cons_of_mem _ hb)
        · rw [List.mem_singleton] at ha
          subst ha
          exact hts.1 b hb
      · intro x hx
        rcases List.mem_append.mp hx with hx | hx
        · exact hbs x hx
        · rw [List.mem_singleton] at hx
          subst hx
          exact hbt x (List.mem_cons_self _ _)
      · intro x hx
        exact hbt x (List.mem_cons_of_mem _ hx)
      · intro x hx
        rcases hcomp x hx with h1 | h1
        · exact Or.inl (List.mem_append.mpr (Or.inl h1))
        · rcases List.mem_cons.mp h1 with h1 | h1
          · subst h1
            exact Or.inl (List.mem_append.mpr (Or.inr (List.mem_singleton.mpr rfl)))
          · exact Or.inr h1

theorem AsyncQueue.stepQueue_inv (s : AsyncQueue.State) (e : AsyncQueue.Event)
    (h : AsyncQueue.Inv s) : AsyncQueue.Inv (AsyncQueue.step s e) := by
  cases e with
  | add =>
    apply AsyncQueue.processNext_inv
    obtain ⟨hlen, hflag, heq, hss, hst, hcross, hbs, hbt, hcomp⟩ := h
    refine ⟨hlen, hflag, heq, hss, ?_, ?_, ?_, ?_, ?_⟩
    · refine List.pairwise_append.mpr ⟨hst, List.sorted_singleton _, ?_⟩
      intro b hb c hc
      rw [List.mem_singleton] at hc
      subst hc
      exact hbt b hb
    · intro a ha b hb
      rcases List.mem_append.mp hb with hb | hb
      · exact hcross a ha b hb
      · rw [List.mem_singleton] at hb
        subst hb
        exact hbs a ha
    · intro x hx
      exact Nat.lt_succ_of_lt (hbs x hx)
    · intro x hx
      rcases List.mem_append.mp hx with hx | hx
      · exact Nat.lt_succ_of_lt (hbt x hx)
      · rw [List.mem_singleton] at hx
        subst hx
        exact Nat.lt_succ_self _
    · intro x hx
      rcases Nat.lt_succ_iff_lt_or_eq.mp hx with hx | hx
      · rcases hcomp x hx with h1 | h1
        · exact Or.inl h1
        · exact Or.inr (List.mem_append.mpr (Or.inl h1))
      · subst hx
        exact Or.inr (List.mem_append.mpr (Or.inr (List.mem_singleton.mpr rfl)))
  | settle =>
    simp only [AsyncQueue.step]
    cases hc : s.current with
    | nil => exact h
    | cons t rest =>
      apply AsyncQueue.processNext_inv
      obtain ⟨hlen, hflag, heq, hss, hst, hcross, hbs, hbt, hcomp⟩ := h
      rw [hc] at hlen heq
      have hrest : rest = [] := by
        cases rest with
        | nil => rfl
        | cons u us => simp at hlen
      subst hrest
      refine ⟨by simp, by simp, ?_, hss, hst, hcross, hbs, hbt, hcomp⟩
      rw [heq]
      simp

theorem AsyncQueue.initQueue_inv : AsyncQueue.Inv AsyncQueue.initState := by
  refine ⟨?_, ?_, ?_, ?_, ?_, ?_, ?_, ?_, ?_⟩ <;> simp [AsyncQueue.initState]

theorem AsyncQueue.runQueue_inv (es : List AsyncQueue.Event) :
    AsyncQueue.Inv (AsyncQueue.run es) := by
  have h : ∀ (s : AsyncQueue.State), AsyncQueue.Inv s →
      AsyncQueue.Inv (es.foldl AsyncQueue.step s) := by
    induction es with
    | nil => exact fun s hs => hs
    | cons e rest ih => exact fun s hs => ih _ (AsyncQueue.stepQueue_inv s e hs)
  exact h _ AsyncQueue.initQueue_inv

/--
**C2.** For every sequence of tasks added to an `AsyncQueue` in submission
order, at most one task is executing at any time; the start trace is the
settlement trace followed by the (at most one) in-flight task; whenever a
later-submitted task has started, every earlier-submitted task has already
settled; and tasks settle in exactly submission order (the settlement trace is
sorted by submission id).  This holds after every event sequence, hence at
every point in time.
-/
theorem AsyncQueue.serial_fifo_execution (es : List AsyncQueue.Event) :
    (AsyncQueue.run es).current.length ≤ 1 ∧
      (AsyncQueue.run es).started =
        (AsyncQueue.run es).settledL ++ (AsyncQueue.run es).current ∧
      (AsyncQueue.run es).settledL.Sorted (· < ·) ∧
      ∀ i j : Nat, i < j → j ∈ (AsyncQueue.run es).started →
        i ∈ (AsyncQueue.run es).settledL := by
  obtain ⟨hlen, hflag, heq, hss, hst, hcross, hbs, hbt, hcomp⟩ := AsyncQueue.runQueue_inv es
  have hsplit := List.pairwise_append.mp (heq ▸ hss)
  refine ⟨hlen, heq, hsplit.1, ?_⟩
  intro i j hij hj
  have hin : i < (AsyncQueue.run es).nextId := Nat.lt_trans hij (hbs j hj)
  rcases hcomp i hin with h1 | h1
  · rw [heq] at h1
    rcases List.mem_append.mp h1 with h1 | h1
    · exact h1
    · have hcuri : (AsyncQueue.run es).current = [i] := by
        cases hc : (AsyncQueue.run es).current with
        | nil => rw [hc] at h1; simp at h1
        | cons u us =>
          rw [hc] at hlen h1
          have hus : us = [] := by
            cases us with
            | nil => rfl
            | cons v vs => simp at hlen
          subst hus
          rw [List.mem_singleton] at h1
          subst h1
          rfl
      rw [heq, hcuri] at hj
      rcases List.mem_append.mp hj with hj | hj
      · exact absurd (hsplit.2.2 j hj i (hcuri ▸ h1)) (Nat.lt_asymm hij)
      · rw [List.mem_singleton] at hj
        subst hj
        exact absurd hij (Nat.lt_irrefl _)
  · exact absurd (hcross j hj i h1) (Nat.lt_asymm hij)

/--
Witness for C2: after `add, add, settle` task 1 has started and the theorem
yields that task 0 has settled; the remaining conjuncts are checked on the
same run.
-/
theorem AsyncQueue.serial_fifo_execution_witness :
    (0 : Nat) < 1 ∧ 1 ∈ (AsyncQueue.run [.add, .add, .settle]).started ∧
      0 ∈ (AsyncQueue.run [.add, .add, .settle]).settledL :=
  ⟨by decide, by decide,
   (AsyncQueue.serial_fifo_execution [.add, .add, .settle]).2.2.2 0 1
     (by decide) (by decide)⟩

/-! ## No rescinding of submitted tasks -/

theorem PromisePool.processGo_started_mono (fuel : Nat) (s : PromisePool.State) :
    ∀ x ∈ s.started, x ∈ (PromisePool.processGo fuel s).started := by
  induction fuel generalizing s with
  | zero => intro x hx; simpa [PromisePool.processGo] using hx
  | succ n ih =>
    intro x hx
    by_cases hr : s.running < s.concurrency
    · cases hq : s.queue with
      | nil => simpa [PromisePool.processGo, hq, hr] using hx
      | cons t rest =>
        simp only [PromisePool.processGo, hq, hr, if_true]
        exact ih _ x (List.mem_append.mpr (Or.inl hx))
    · simpa [PromisePool.processGo, hr] using hx

theorem PromisePool.processGo_queue_mem (fuel : Nat) (s : PromisePool.State) :
    ∀ x ∈ s.queue,
      x ∈ (PromisePool.processGo fuel s).queue ∨
        x ∈ (PromisePool.processGo fuel s).started := by
  induction fuel generalizing s with
  | zero => intro x hx; exact Or.inl (by simpa [PromisePool.processGo] using hx)
  | succ n ih =>
    intro x hx
    by_cases hr : s.running < s.concurrency
    · cases hq : s.queue with
      | nil => rw [hq] at hx; simp at hx
      | cons t rest =>
        simp only [PromisePool.processGo, hq, hr, if_true]
        rw [hq] at hx
        rcases List.mem_cons.mp hx with hx | hx
        · subst hx
          exact Or.inr (PromisePool.processGo_started_mono n _ x
            (List.mem_append.mpr (Or.inr (List.mem_singleton.mpr rfl))))
        · exact ih _ x hx
    · simp only [PromisePool.processGo, hr, if_false]
      exact Or.inl hx

theorem PromisePool.step_queue_mem (s : PromisePool.State) (e : PromisePool.Event) :
    ∀ x ∈ s.queue,
      x ∈ (PromisePool.step s e).queue ∨ x ∈ (PromisePool.step s e).started := by
  intro x hx
  cases e with
  | add =>
    exact PromisePool.processGo_queue_mem _ _ x (List.mem_append.mpr (Or.inl hx))
  | settle =>
    simp only [PromisePool.step]
    by_cases hr : 0 < s.running
    · rw [if_pos hr]
      exact PromisePool.processGo_queue_mem _ _ x hx
    · rw [if_neg hr]
      exact Or.inl hx

theorem AsyncQueue.processNext_tasks_mem (s : AsyncQueue.State) :
    ∀ x ∈ s.tasks,
      x ∈ (AsyncQueue.processNext s).tasks ∨
        x ∈ (AsyncQueue.processNext s).started := by
  intro x hx
  by_cases hguard : (s.processing || s.tasks.isEmpty) = true
  · simp only [AsyncQueue.processNext, hguard, if_true]
    exact Or.inl hx
  · have hp : s.processing = false := by
      cases hsp : s.processing
      · rfl
      · simp [hsp] at hguard
    cases hq : s.tasks with
    | nil => rw [hq] at hx; simp at hx
    | cons t rest =>
      have hred : AsyncQueue.processNext s =
          { s with processing := true, tasks := rest,
                   current := s.current ++ [t], started := s.started ++ [t] } := by
        simp [AsyncQueue.processNext, hq, hp]
      rw [hred]
      rw [hq] at hx
      rcases List.mem_cons.mp hx with hx | hx
      · subst hx
        exact Or.inr (List.mem_append.mpr (Or.inr (List.mem_singleton.mpr rfl)))
      · exact Or.inl hx

theorem AsyncQueue.step_tasks_mem (s : AsyncQueue.State) (e : AsyncQueue.Event) :
    ∀ x ∈ s.tasks,
      x ∈ (AsyncQueue.step s e).tasks ∨ x ∈ (AsyncQueue.step s e).started := by
  intro x hx
  cases e with
  | add =>
    exact AsyncQueue.processNext_tasks_mem _ x (List.mem_append.mpr (Or.inl hx))
  | settle =>
    simp only [AsyncQueue.step]
    cases hc : s.current with
    | nil => exact Or.inl hx
    | cons t rest => exact AsyncQueue.processNext_tasks_mem _ x hx

/--
**C9 (amended).** For every task waiting in the Pool's queue or the Serial
Queue's queue, no `add` or settlement event removes it from the waiting queue
other than by dequeuing it for execution: after any such event the task is
either still waiting or has been started.  (The Serial Queue's `clear`
operation, excluded here, does rescind waiting tasks — see the
counterexample.)
-/
theorem no_rescind_except_clear :
    (∀ (s : PromisePool.State) (e : PromisePool.Event), ∀ x ∈ s.queue,
        x ∈ (PromisePool.step s e).queue ∨ x ∈ (PromisePool.step s e).started) ∧
      ∀ (s : AsyncQueue.State) (e : AsyncQueue.Event), ∀ x ∈ s.tasks,
        x ∈ (AsyncQueue.step s e).tasks ∨ x ∈ (AsyncQueue.step s e).started :=
  ⟨PromisePool.step_queue_mem, AsyncQueue.step_tasks_mem⟩

/--
Witness for the amended C9: task 1 waits in a ceiling-1 pool behind task 0;
after the settlement event it is either still queued or started (here:
started).
-/
theorem no_rescind_except_clear_witness :
    1 ∈ (PromisePool.run 1 [.add, .add]).queue ∧
      (1 ∈ (PromisePool.step (PromisePool.run 1 [.add, .add]) .settle).queue ∨
        1 ∈ (PromisePool.step (PromisePool.run 1 [.add, .add]) .settle).started) :=
  ⟨by decide, no_rescind_except_clear.1 _ .settle 1 (by decide)⟩

/--
**C9 counterexample.** `AsyncQueue.clear` rescinds a submitted task: task 1 is
waiting after two submissions, `clear` removes it without starting it, and
even after the in-flight task settles it never starts — so it is false that a
submitted task is only ever removed from its waiting queue by being dequeued
for execution.
-/
theorem clear_rescinds_queued_task :
    1 ∈ (AsyncQueue.run [.add, .add]).tasks ∧
      1 ∉ (AsyncQueue.clear (AsyncQueue.run [.add, .add])).tasks ∧
      1 ∉ (AsyncQueue.clear (AsyncQueue.run [.add, .add])).started ∧
      1 ∉ (AsyncQueue.step (AsyncQueue.clear (AsyncQueue.run [.add, .add]))
            .settle).started := by
  decide

/-! ## Retry executor -/

theorem RetryPolicy.executeGo_all_fail {E A : Type} (fn : Nat → Except E A)
    (errs : Nat → E) (hfn : ∀ i, fn i = .error (errs i)) (backoff : Nat) :
    ∀ (remaining currentDelay attempt : Nat),
      (RetryPolicy.executeGo fn backoff remaining currentDelay attempt).1 =
          .error (errs (attempt + remaining)) ∧
        (RetryPolicy.executeGo fn backoff remaining currentDelay attempt).2.1 =
          attempt + remaining + 1 ∧
        (RetryPolicy.executeGo fn backoff remaining currentDelay attempt).2.2.length =
          remaining := by
  intro remaining
  induction remaining with
  | zero =>
    intro currentDelay attempt
    simp [RetryPolicy.executeGo, hfn attempt]
  | succ r ih =>
    intro currentDelay attempt
    have h := ih (currentDelay * backoff) (attempt + 1)
    have hred : RetryPolicy.executeGo fn backoff (r + 1) currentDelay attempt =
        ((RetryPolicy.executeGo fn backoff r (currentDelay * backoff) (attempt + 1)).1,
         (RetryPolicy.executeGo fn backoff r (currentDelay * backoff) (attempt + 1)).2.1,
         currentDelay ::
           (RetryPolicy.executeGo fn backoff r (currentDelay * backoff) (attempt + 1)).2.2) := by
      conv_lhs => rw [RetryPolicy.executeGo]
      rw [hfn attempt]
    rw [hred]
    refine ⟨?_, ?_, ?_⟩
    · rw [h.1]
      have harith : attempt + 1 + r = attempt + (r + 1) := by omega
      rw [harith]
    · rw [h.2.1]
      omega
    · simp [h.2.2]

/--
**C4.** For every `RetryPolicy` with `maxRetries = m` and every task that
fails on all invocations, `execute` invokes the task exactly `m + 1` times and
rejects with the error of the final attempt (attempt index `m`), and the
number of backoff waits incurred is `m` — in particular with `maxRetries = 0`
the task runs exactly once and no wait is ever incurred.
-/
theorem RetryPolicy.execute_all_fail {E A : Type} (m delay backoff : Nat)
    (fn : Nat → Except E A) (errs : Nat → E)
    (hfn : ∀ i, fn i = .error (errs i)) :
    (RetryPolicy.execute m delay backoff fn).2.1 = m + 1 ∧
      (RetryPolicy.execute m delay backoff fn).1 = .error (errs m) ∧
      (RetryPolicy.execute m delay backoff fn).2.2.length = m := by
  have h := RetryPolicy.executeGo_all_fail fn errs hfn backoff m delay 0
  rw [Nat.zero_add] at h
  exact ⟨h.2.1, h.1, h.2.2⟩

/--
Witness for C4: `maxRetries = 2` with a task failing with error `i` on attempt
`i`: 3 attempts, final error `2` (the most recent, not the first), 2 waits;
and `maxRetries = 0`: 1 attempt and no waits.
-/
theorem RetryPolicy.execute_all_fail_witness :
    ((RetryPolicy.execute 2 10 2 fun i => (Except.error i : Except Nat Nat)).2.1 = 2 + 1 ∧
      (RetryPolicy.execute 2 10 2 fun i => (Except.error i : Except Nat Nat)).1 =
        .error 2 ∧
      (RetryPolicy.execute 2 10 2 fun i => (Except.error i : Except Nat Nat)).2.2.length = 2) ∧
      (RetryPolicy.execute 0 10 2 fun i => (Except.error i : Except Nat Nat)).2.1 = 0 + 1 ∧
      (RetryPolicy.execute 0 10 2 fun i => (Except.error i : Except Nat Nat)).2.2.length = 0 :=
  ⟨RetryPolicy.execute_all_fail 2 10 2 _ (fun i => i) (fun _ => rfl),
   (RetryPolicy.execute_all_fail 0 10 2 _ (fun i => i) (fun _ => rfl)).1,
   (RetryPolicy.execute_all_fail 0 10 2 _ (fun i => i) (fun _ => rfl)).2.2⟩

/-! ## Deadline guard -/

/--
**C5.** For every computation and duration: when the computation settles
strictly before the timer fires, `Timeout.promise` settles at the
computation's time with the computation's outcome; when the timer fires
strictly first, it settles at `timeoutMs` with the timeout failure, and the
result is the same whatever the computation's later outcome would have been —
the late outcome is discarded and never reported.
-/
theorem Timeout.deadline_guard {E A : Type} (taskTime timeoutMs : Nat)
    (task : Except E A) :
    (taskTime < timeoutMs →
        Timeout.promise taskTime task timeoutMs = (taskTime, Timeout.toResult task)) ∧
      (timeoutMs < taskTime →
        Timeout.promise taskTime task timeoutMs = (timeoutMs, Timeout.Result.timedOut) ∧
          ∀ task' : Except E A,
            Timeout.promise taskTime task' timeoutMs =
              Timeout.promise taskTime task timeoutMs) := by
  constructor
  · intro h
    simp [Timeout.promise, Nat.le_of_lt h]
  · intro h
    have hn : ¬ taskTime ≤ timeoutMs := not_le.mpr h
    constructor
    · simp [Timeout.promise, hn]
    · intro task'
      simp [Timeout.promise, hn]

/--
Witness for C5: a task settling at 50 against a 100 deadline yields the task's
value at 50; a task settling at 150 against a 100 deadline yields the timeout
failure at 100, and the result would be identical for any other task outcome.
-/
theorem Timeout.deadline_guard_witness :
    Timeout.promise 50 (Except.ok 7 : Except Nat Nat) 100 = (50, Timeout.Result.ok 7) ∧
      Timeout.promise 150 (Except.ok 7 : Except Nat Nat) 100 =
        (100, Timeout.Result.timedOut) ∧
      Timeout.promise 150 (Except.error 9 : Except Nat Nat) 100 =
        Timeout.promise 150 (Except.ok 7 : Except Nat Nat) 100 :=
  ⟨(Timeout.deadline_guard 50 100 (Except.ok 7)).1 (by decide),
   ((Timeout.deadline_guard 150 100 (Except.ok 7)).2 (by decide)).1,
   ((Timeout.deadline_guard 150 100 (Except.ok 7)).2 (by decide)).2 (Except.error 9)⟩

/-! ## Memoization cache -/

theorem CachePromise.mapGet_mapSet_self {K V : Type} [DecidableEq K]
    (c : CachePromise.Cache K V) (k : K) (b : V × Option Nat) :
    CachePromise.mapGet (CachePromise.mapSet c k b) k = some b := by
  induction c with
  | nil => simp [CachePromise.mapSet, CachePromise.mapGet]
  | cons en rest ih =>
    obtain ⟨k', v, ex⟩ := en
    by_cases h : k' = k
    · simp [CachePromise.mapSet, CachePromise.mapGet, h]
    · simp [CachePromise.mapSet, CachePromise.mapGet, h, ih]

theorem CachePromise.mapGet_eq_none_of_not_mem {K V : Type} [DecidableEq K]
    (c : CachePromise.Cache K V) (k : K) (h : k ∉ c.map fun en => en.1) :
    CachePromise.mapGet c k = none := by
  induction c with
  | nil => rfl
  | cons en rest ih =>
    obtain ⟨k', v, ex⟩ := en
    simp only [List.map_cons, List.mem_cons] at h
    push_neg at h
    have hne : k' ≠ k := fun he => h.1 he.symm
    simp [CachePromise.mapGet, hne, ih h.2]

theorem CachePromise.mapGet_mapDelete_self {K V : Type} [DecidableEq K]
    (c : CachePromise.Cache K V) (k : K) (hnd : (c.map fun en => en.1).Nodup) :
    CachePromise.mapGet (CachePromise.mapDelete c k) k = none := by
  induction c with
  | nil => rfl
  | cons en rest ih =>
    obtain ⟨k', v, ex⟩ := en
    simp only [List.map_cons, List.nodup_cons] at hnd
    by_cases h : k' = k
    · subst h
      simp only [CachePromise.mapDelete, if_pos rfl]
      exact CachePromise.mapGet_eq_none_of_not_mem rest k' hnd.1
    · simp [CachePromise.mapDelete, CachePromise.mapGet, h, ih hnd.2]

theorem CachePromise.memoizeCompute_invoked {K V E : Type} [DecidableEq K]
    (c : CachePromise.Cache K V) (key : K) (fn : Except E V) (ttl now : Nat) :
    (CachePromise.memoizeCompute c key fn ttl now).2.2 = true := by
  cases fn <;> rfl

theorem CachePromise.memoize_invoked_of_get_none {K V E : Type} [DecidableEq K]
    (c : CachePromise.Cache K V) (key : K) (fn : Except E V) (ttl now : Nat)
    (h : CachePromise.mapGet c key = none) :
    (CachePromise.memoize c key fn ttl now).2.2 = true := by
  rw [CachePromise.memoize, h]
  exact CachePromise.memoizeCompute_invoked c key fn ttl now

theorem CachePromise.memoize_invoked_of_stale {K V E : Type} [DecidableEq K]
    (c : CachePromise.Cache K V) (key : K) (fn : Except E V) (ttl now : Nat)
    (h : ∀ p, CachePromise.mapGet c key = some p →
      CachePromise.isFresh now p.2 = false) :
    (CachePromise.memoize c key fn ttl now).2.2 = true := by
  cases hm : CachePromise.mapGet c key with
  | none => exact CachePromise.memoize_invoked_of_get_none c key fn ttl now hm
  | some p =>
    obtain ⟨v, exp⟩ := p
    have hst := h _ hm
    simp only at hst
    rw [CachePromise.memoize, hm]
    simp only [hst, if_false]
    exact CachePromise.memoizeCompute_invoked _ _ _ _ _

/--
**C6.** `memoize(key, task, ttl)` returns the stored value without invoking
the task when a fresh (unexpired or expiry-free) entry exists for the key,
leaving the cache unchanged; on a missing key it invokes the task and stores
the value with expiry `now + ttl` (no expiry when `ttl` is absent/zero); on an
expired entry it deletes the entry and does the same.  Consequently two calls
within the ttl window invoke the task once, and a call at or after expiry
invokes it again.
-/
theorem CachePromise.memoize_spec {K V E : Type} [DecidableEq K]
    (c : CachePromise.Cache K V) (key : K) (w : V) (ttl now : Nat) :
    (∀ v exp, CachePromise.mapGet c key = some (v, exp) →
        CachePromise.isFresh now exp = true →
        ∀ fn : Except E V,
          CachePromise.memoize c key fn ttl now = (Except.ok v, c, false)) ∧
      (CachePromise.mapGet c key = none →
        CachePromise.memoize c key (Except.ok w : Except E V) ttl now =
          (Except.ok w,
            CachePromise.mapSet c key
              (w, if ttl = 0 then none else some (now + ttl)), true)) ∧
      (∀ v t, CachePromise.mapGet c key = some (v, some t) → t ≤ now →
        CachePromise.memoize c key (Except.ok w : Except E V) ttl now =
          (Except.ok w,
            CachePromise.mapSet (CachePromise.mapDelete c key) key
              (w, if ttl = 0 then none else some (now + ttl)), true)) ∧
      (CachePromise.mapGet c key = none → ttl ≠ 0 → ∀ now2 : Nat, now2 < now + ttl →
        ∀ fn2 : Except E V,
          CachePromise.memoize
              (CachePromise.memoize c key (Except.ok w : Except E V) ttl now).2.1
              key fn2 ttl now2 =
            (Except.ok w,
              (CachePromise.memoize c key (Except.ok w : Except E V) ttl now).2.1,
              false)) ∧
      (CachePromise.mapGet c key = none → ttl ≠ 0 → ∀ now3 : Nat, now + ttl ≤ now3 →
        (CachePromise.memoize
            (CachePromise.memoize c key (Except.ok w : Except E V) ttl now).2.1
            key (Except.ok w : Except E V) ttl now3).2.2 = true) := by
  have hmiss : CachePromise.mapGet c key = none →
      CachePromise.memoize c key (Except.ok w : Except E V) ttl now =
        (Except.ok w,
          CachePromise.mapSet c key
            (w, if ttl = 0 then none else some (now + ttl)), true) := by
    intro hm
    rw [CachePromise.memoize, hm]
    rfl
  refine ⟨?_, hmiss, ?_, ?_, ?_⟩
  · intro v exp hm hf fn
    rw [CachePromise.memoize, hm]
    simp [hf]
  · intro v t hm ht
    have hstale : CachePromise.isFresh now (some t) = false := by
      simp [CachePromise.isFresh]
      omega
    rw [CachePromise.memoize, hm]
    simp [hstale, CachePromise.memoizeCompute]
  · intro hm httl now2 hnow2 fn2
    have hc1 : (CachePromise.memoize c key (Except.ok w : Except E V) ttl now).2.1 =
        CachePromise.mapSet c key (w, some (now + ttl)) := by
      rw [hmiss hm]
      simp [if_neg httl]
    have hget := CachePromise.mapGet_mapSet_self c key (w, some (now + ttl))
    have hf : CachePromise.isFresh now2 (some (now + ttl)) = true := by
      simp [CachePromise.isFresh]
      omega
    rw [hc1, CachePromise.memoize, hget]
    simp [hf]
  · intro hm httl now3 hnow3
    have hc1 : (CachePromise.memoize c key (Except.ok w : Except E V) ttl now).2.1 =
        CachePromise.mapSet c key (w, some (now + ttl)) := by
      rw [hmiss hm]
      simp [if_neg httl]
    have hget := CachePromise.mapGet_mapSet_self c key (w, some (now + ttl))
    rw [hc1]
    apply CachePromise.memoize_invoked_of_stale
    intro p hp
    rw [hget] at hp
    injection hp with hp
    subst hp
    simp only [CachePromise.isFresh]
    simp
    omega

/--
Witness for C6: on an empty cache, `memoize` stores 7 under key 0 with ttl
100 at time 0; a second call at time 50 returns 7 without invoking its task,
whatever that task is.
-/
theorem CachePromise.memoize_spec_witness :
    CachePromise.memoize
        (CachePromise.memoize ([] : CachePromise.Cache Nat Nat) 0
          (Except.ok 7 : Except Nat Nat) 100 0).2.1 0
        (Except.ok 9 : Except Nat Nat) 100 50 =
      (Except.ok 7,
        (CachePromise.memoize ([] : CachePromise.Cache Nat Nat) 0
          (Except.ok 7 : Except Nat Nat) 100 0).2.1,
        false) :=
  (CachePromise.memoize_spec [] 0 7 100 0).2.2.2.1 rfl (by decide) 50 (by decide)
    (Except.ok 9)

/--
**C10 counterexample.** The claim says a failing task leaves the cache
unchanged; but when the entry for the key is expired, `memoize` deletes it
before invoking the task, so the cache does change even though the task
failed: here entry `(0, 5, expiry 5)` at time 10 is gone afterwards.
-/
theorem CachePromise.memoize_error_changes_cache :
    (CachePromise.memoize [((0 : Nat), (5 : Nat), some 5)] 0
        (Except.error (3 : Nat)) 0 10).1 = Except.error 3 ∧
      (CachePromise.memoize [((0 : Nat), (5 : Nat), some 5)] 0
        (Except.error (3 : Nat)) 0 10).2.1 ≠ [(0, 5, some 5)] :=
  ⟨rfl, by decide⟩

/--
**C10 (amended).** If the task passed to `memoize(key, task, ttl)` runs and
fails, `memoize` rejects with that same error and no entry is created or
overwritten for the key: the cache is unchanged except that an expired
preexisting entry for the key is deleted, the key maps to nothing afterwards,
and a subsequent `memoize` for the key invokes the task again — entries exist
only for successful computations.  (Hypothesis `hstale` says the task actually
runs: no fresh entry for the key exists.)
-/
theorem CachePromise.memoize_error_no_store {K V E : Type} [DecidableEq K]
    (c : CachePromise.Cache K V) (key : K) (e : E) (ttl now : Nat)
    (hnd : (c.map fun en => en.1).Nodup)
    (hstale : ∀ p, CachePromise.mapGet c key = some p →
      CachePromise.isFresh now p.2 = false) :
    (CachePromise.memoize c key (Except.error e : Except E V) ttl now).1 =
        Except.error e ∧
      (CachePromise.memoize c key (Except.error e : Except E V) ttl now).2.2 = true ∧
      ((CachePromise.memoize c key (Except.error e : Except E V) ttl now).2.1 = c ∨
        (CachePromise.memoize c key (Except.error e : Except E V) ttl now).2.1 =
          CachePromise.mapDelete c key) ∧
      CachePromise.mapGet
          (CachePromise.memoize c key (Except.error e : Except E V) ttl now).2.1
          key = none ∧
      ∀ (fn2 : Except E V) (ttl2 now2 : Nat),
        (CachePromise.memoize
            (CachePromise.memoize c key (Except.error e : Except E V) ttl now).2.1
            key fn2 ttl2 now2).2.2 = true := by
  cases hm : CachePromise.mapGet c key with
  | none =>
    have hred : CachePromise.memoize c key (Except.error e : Except E V) ttl now =
        (Except.error e, c, true) := by
      rw [CachePromise.memoize, hm]
      rfl
    rw [hred]
    exact ⟨rfl, rfl, Or.inl rfl, hm,
      fun fn2 ttl2 now2 =>
        CachePromise.memoize_invoked_of_get_none c key fn2 ttl2 now2 hm⟩
  | some p =>
    have hst := hstale p hm
    have hred : CachePromise.memoize c key (Except.error e : Except E V) ttl now =
        (Except.error e, CachePromise.mapDelete c key, true) := by
      obtain ⟨v, exp⟩ := p
      rw [CachePromise.memoize, hm]
      simp only at hst
      simp [hst, CachePromise.memoizeCompute]
    rw [hred]
    have hdel := CachePromise.mapGet_mapDelete_self c key hnd
    exact ⟨rfl, rfl, Or.inr rfl, hdel,
      fun fn2 ttl2 now2 =>
        CachePromise.memoize_invoked_of_get_none _ key fn2 ttl2 now2 hdel⟩

/--
Witness for the amended C10: at time 10 the entry for key 0 has expired; a
failing task yields the error, the entry is deleted, nothing is stored, and a
subsequent call invokes its task again.
-/
theorem CachePromise.memoize_error_no_store_witness :
    (CachePromise.memoize [((0 : Nat), (5 : Nat), some 5)] 0
        (Except.error (3 : Nat)) 0 10).1 = Except.error 3 ∧
      CachePromise.mapGet
        (CachePromise.memoize [((0 : Nat), (5 : Nat), some 5)] 0
          (Except.error (3 : Nat)) 0 10).2.1 0 = none ∧
      (CachePromise.memoize
          (CachePromise.memoize [((0 : Nat), (5 : Nat), some 5)] 0
            (Except.error (3 : Nat)) 0 10).2.1 0
          (Except.error (4 : Nat)) 0 20).2.2 = true := by
  have h := CachePromise.memoize_error_no_store
    [((0 : Nat), (5 : Nat), some 5)] 0 (3 : Nat) 0 10 (by decide)
    (by
      intro p hp
      simp [CachePromise.mapGet] at hp
      rw [← hp]
      decide)
  exact ⟨h.1, h.2.2.2.1, h.2.2.2.2 (Except.error 4) 0 20⟩

/-! ## Batching -/

theorem AsyncIterator.batchGo_spec {α : Type} (k : Nat) (hk : 1 ≤ k) :
    ∀ (l acc : List α), acc.length < k →
      (AsyncIterator.batchGo k acc l).join = acc ++ l ∧
        (∀ g ∈ (AsyncIterator.batchGo k acc l).dropLast, g.length = k) ∧
        (AsyncIterator.batchGo k acc l = [] ↔ acc = [] ∧ l = []) ∧
        (acc ++ l ≠ [] →
          ((AsyncIterator.batchGo k acc l).getLastD []).length =
            if (acc.length + l.length) % k = 0 then k
            else (acc.length + l.length) % k) := by
  intro l
  induction l with
  | nil =>
    intro acc hacc
    cases acc with
    | nil => simp [AsyncIterator.batchGo]
    | cons a as =>
      have hlen : (a :: as).length = as.length + 1 := rfl
      have hmod : (as.length + 1) % k = as.length + 1 := by
        apply Nat.mod_eq_of_lt
        simpa using hacc
      refine ⟨by simp [AsyncIterator.batchGo], by simp [AsyncIterator.batchGo], ?_, ?_⟩
      · simp [AsyncIterator.batchGo]
      · intro _
        simp only [AsyncIterator.batchGo, List.length_cons, Nat.add_zero]
        simp [hmod]
  | cons x xs ih =>
    intro acc hacc
    by_cases hfull : (acc ++ [x]).length = k
    · have hred : AsyncIterator.batchGo k acc (x :: xs) =
          (acc ++ [x]) :: AsyncIterator.batchGo k [] xs := by
        simp only [AsyncIterator.batchGo, if_pos hfull]
      obtain ⟨ihj, ihd, ihe, ihl⟩ := ih [] (by simpa using hk)
      refine ⟨?_, ?_, ?_, ?_⟩
      · rw [hred]
        simp only [List.join_cons, ihj]
        simp
      · rw [hred]
        cases hB : AsyncIterator.batchGo k [] xs with
        | nil => simp
        | cons b bs =>
          intro g hg
          rw [List.dropLast_cons₂] at hg
          rcases List.mem_cons.mp hg with hg | hg
          · rw [hg]
            exact hfull
          · rw [hB] at ihd
            exact ihd g hg
      · rw [hred]
        constructor
        · intro h
          exact absurd h (List.cons_ne_nil _ _)
        · intro h
          exact absurd h.2 (List.cons_ne_nil _ _)
      · intro _
        rw [hred, List.getLastD_cons]
        have htot : acc.length + (x :: xs).length = k + xs.length := by
          have : acc.length + 1 = k := by simpa using hfull
          simp only [List.length_cons]
          omega
        rw [htot, Nat.add_mod_left]
        cases hB : AsyncIterator.batchGo k [] xs with
        | nil =>
          have hxs : xs = [] := ((ihe).mp hB).2
          subst hxs
          simp only [List.getLastD_nil, List.length_nil, Nat.zero_mod, if_pos rfl]
          simpa using hfull
        | cons b bs =>
          have hxs : xs ≠ [] := by
            intro hx
            rw [hx] at hB
            have : AsyncIterator.batchGo k ([] : List α) [] = [] := by
              simp [AsyncIterator.batchGo]
            rw [this] at hB
            exact absurd hB.symm (List.cons_ne_nil _ _)
          have h1 := ihl (by simpa using hxs)
          rw [hB] at h1
          rw [List.getLastD_cons] at h1 ⊢
          simpa using h1
    · have hred : AsyncIterator.batchGo k acc (x :: xs) =
          AsyncIterator.batchGo k (acc ++ [x]) xs := by
        simp only [AsyncIterator.batchGo, if_neg hfull]
      have hlt : (acc ++ [x]).length < k := by
        have : (acc ++ [x]).length = acc.length + 1 := by simp
        omega
      obtain ⟨ihj, ihd, ihe, ihl⟩ := ih (acc ++ [x]) hlt
      refine ⟨?_, ?_, ?_, ?_⟩
      · rw [hred, ihj]
        simp
      · rw [hred]
        exact ihd
      · rw [hred]
        constructor
        · intro h
          exact absurd ((ihe).mp h).1 (by simp)
        · intro h
          exact absurd h.2 (List.cons_ne_nil _ _)
      · intro _
        rw [hred]
        have h1 := ihl (by simp)
        have htot : (acc ++ [x]).length + xs.length = acc.length + (x :: xs).length := by
          simp
          omega
        rw [htot] at h1
        exact h1

/--
**C7.** For every source list and batch size `k ≥ 1`, `AsyncIterator.batch`
yields the source's elements grouped into consecutive non-overlapping groups
in arrival order (their concatenation is the source), every group except the
last has exactly `k` elements, the final group is nonempty with at most `k`
elements and is a partial group (size < `k`) exactly when the source length is
not a multiple of `k`, and an empty source yields nothing.
-/
theorem AsyncIterator.batch_spec {α : Type} (l : List α) (k : Nat) (hk : 1 ≤ k) :
    (AsyncIterator.batch l k).join = l ∧
      (∀ g ∈ (AsyncIterator.batch l k).dropLast, g.length = k) ∧
      (AsyncIterator.batch l k = [] ↔ l = []) ∧
      (l ≠ [] →
        0 < ((AsyncIterator.batch l k).getLastD []).length ∧
          ((AsyncIterator.batch l k).getLastD []).length ≤ k ∧
          (((AsyncIterator.batch l k).getLastD []).length < k ↔ ¬ k ∣ l.length)) := by
  obtain ⟨hj, hd, he, hl⟩ := AsyncIterator.batchGo_spec k hk l [] (by simpa using hk)
  refine ⟨by simpa using hj, hd, by simpa using he, ?_⟩
  intro hne
  have h1 := hl (by simpa using hne)
  simp only [List.length_nil, Nat.zero_add] at h1
  simp only [AsyncIterator.batch]
  rw [h1]
  by_cases hm : l.length % k = 0
  · rw [if_pos hm]
    refine ⟨by omega, Nat.le_refl k, ?_⟩
    simp [Nat.dvd_iff_mod_eq_zero, hm]
  · rw [if_neg hm]
    have hlt : l.length % k < k := Nat.mod_lt _ (by omega)
    refine ⟨by omega, Nat.le_of_lt hlt, ?_⟩
    simp [Nat.dvd_iff_mod_eq_zero, hm, hlt]

/--
Witness for C7: batching `[1,2,3,4,5]` with size 2 yields `[1,2]`, `[3,4]`,
`[5]` (non-overlapping, final partial group), the empty source yields nothing,
and the theorem's conjuncts are instantiated on that input.
-/
theorem AsyncIterator.batch_spec_witness :
    AsyncIterator.batch [1, 2, 3, 4, 5] 2 = [[1, 2], [3, 4], [5]] ∧
      AsyncIterator.batch ([] : List Nat) 2 = [] ∧
      (AsyncIterator.batch [1, 2, 3, 4, 5] 2).join = [1, 2, 3, 4, 5] ∧
      ((AsyncIterator.batch ([1, 2, 3, 4, 5] : List Nat) 2).getLastD []).length < 2 :=
  ⟨by decide, by decide, (AsyncIterator.batch_spec [1, 2, 3, 4, 5] 2 (by decide)).1,
   ((((AsyncIterator.batch_spec ([1, 2, 3, 4, 5] : List Nat) 2 (by decide)).2.2.2
     (by decide)).2.2).mpr (by decide))⟩

/-! ## Promise.all (executeAll) -/

theorem PromiseJs.firstFailure_none {E A : Type} :
    ∀ hs : List (Nat × Except E A), PromiseJs.firstFailure hs = none →
      ∀ t e, (t, Except.error e) ∉ hs := by
  intro hs
  induction hs with
  | nil => intro _ t e h; simp at h
  | cons q rest ih =>
    obtain ⟨t0, o0⟩ := q
    intro h t e hmem
    cases o0 with
    | ok a =>
      rcases List.mem_cons.mp hmem with hmem | hmem
      · exact absurd (congrArg Prod.snd hmem).symm (by simp)
      · exact ih (by simpa [PromiseJs.firstFailure] using h) t e hmem
    | error e0 =>
      rw [PromiseJs.firstFailure] at h
      cases hr : PromiseJs.firstFailure rest <;> rw [hr] at h
      · exact absurd h (by simp)
      · rename_i p
        obtain ⟨t1, e1⟩ := p
        by_cases hlt : t1 < t0 <;> simp [hlt] at h

theorem PromiseJs.firstFailure_eq_none {E A : Type} :
    ∀ hs : List (Nat × Except E A), (∀ p ∈ hs, ∃ a : A, p.2 = Except.ok a) →
      PromiseJs.firstFailure hs = none := by
  intro hs
  induction hs with
  | nil => intro _; rfl
  | cons q rest ih =>
    obtain ⟨t0, o0⟩ := q
    intro h
    obtain ⟨a, ha⟩ := h (t0, o0) (List.mem_cons_self _ _)
    simp only at ha
    subst ha
    simpa [PromiseJs.firstFailure] using
      ih fun p hp => h p (List.mem_cons_of_mem _ hp)

theorem PromiseJs.firstFailure_spec {E A : Type} :
    ∀ (hs : List (Nat × Except E A)) (t : Nat) (e : E),
      PromiseJs.firstFailure hs = some (t, e) →
        (t, Except.error e) ∈ hs ∧
          ∀ t' e', (t', Except.error e') ∈ hs → t ≤ t' := by
  intro hs
  induction hs with
  | nil => intro t e h; simp [PromiseJs.firstFailure] at h
  | cons q rest ih =>
    obtain ⟨t0, o0⟩ := q
    intro t e h
    cases o0 with
    | ok a =>
      have h' := ih t e (by simpa [PromiseJs.firstFailure] using h)
      refine ⟨List.mem_cons_of_mem _ h'.1, ?_⟩
      intro t' e' hmem
      rcases List.mem_cons.mp hmem with hmem | hmem
      · exact absurd (congrArg Prod.snd hmem).symm (by simp)
      · exact h'.2 t' e' hmem
    | error e0 =>
      rw [PromiseJs.firstFailure] at h
      cases hr : PromiseJs.firstFailure rest <;> rw [hr] at h
      · simp only [Option.some.injEq, Prod.mk.injEq] at h
        obtain ⟨rfl, rfl⟩ := h
        refine ⟨List.mem_cons_self _ _, ?_⟩
        intro t' e' hmem
        rcases List.mem_cons.mp hmem with hmem | hmem
        · exact (Prod.mk.injEq _ _ _ _ ▸ hmem).1.symm.le
        · exact absurd hmem (PromiseJs.firstFailure_none rest hr t' e')
      · rename_i p
        obtain ⟨t1, e1⟩ := p
        have h' := ih t1 e1 hr
        replace h : (if t1 < t0 then some (t1, e1) else some (t0, e0)) =
            some (t, e) := h
        by_cases hlt : t1 < t0
        · rw [if_pos hlt] at h
          simp only [Option.some.injEq, Prod.mk.injEq] at h
          obtain ⟨rfl, rfl⟩ := h
          refine ⟨List.mem_cons_of_mem _ h'.1, ?_⟩
          intro t' e' hmem
          rcases List.mem_cons.mp hmem with hmem | hmem
          · exact (Prod.mk.injEq _ _ _ _ ▸ hmem).1 ▸ Nat.le_of_lt hlt
          · exact h'.2 t' e' hmem
        · rw [if_neg hlt] at h
          simp only [Option.some.injEq, Prod.mk.injEq] at h
          obtain ⟨rfl, rfl⟩ := h
          refine ⟨List.mem_cons_self _ _, ?_⟩
          intro t' e' hmem
          rcases List.mem_cons.mp hmem with hmem | hmem
          · exact (Prod.mk.injEq _ _ _ _ ▸ hmem).1.symm.le
          · exact Nat.le_trans (Nat.le_of_not_lt hlt) (h'.2 t' e' hmem)

theorem PromiseJs.le_lastSettleTime {E A : Type} (hs : List (Nat × Except E A)) :
    ∀ p ∈ hs, p.1 ≤ PromiseJs.lastSettleTime hs := by
  have key : ∀ (l : List (Nat × Except E A)) (b : Nat),
      b ≤ l.foldl (fun m h => max m h.1) b ∧
        ∀ p ∈ l, p.1 ≤ l.foldl (fun m h => max m h.1) b := by
    intro l
    induction l with
    | nil => exact fun b => ⟨Nat.le_refl b, by simp⟩
    | cons q rest ih =>
      intro b
      have h1 := ih (max b q.1)
      refine ⟨Nat.le_trans (Nat.le_max_left _ _) h1.1, ?_⟩
      intro p hp
      rcases List.mem_cons.mp hp with hp | hp
      · subst hp
        exact Nat.le_trans (Nat.le_max_right _ _) h1.1
      · exact h1.2 p hp
  exact (key hs 0).2

/--
**C3 counterexample.** `executeAll` = `Promise.all` over the pool handles does
*not* wait for every handle before settling: with a handle rejecting at time 1
and a handle fulfilling at time 5, the aggregate settles (rejects) at time 1,
strictly before the second handle has settled.
-/
theorem PromiseJs.promiseAll_settles_early :
    PromiseJs.promiseAll [(1, Except.error (0 : Nat)), (5, Except.ok (7 : Nat))] =
        (1, Except.error 0) ∧
      (5, Except.ok (7 : Nat)) ∈
        [(1, Except.error (0 : Nat)), (5, Except.ok (7 : Nat))] ∧
      (PromiseJs.promiseAll
          [(1, Except.error (0 : Nat)), (5, Except.ok (7 : Nat))]).1 < 5 :=
  ⟨rfl, List.mem_cons_of_mem _ (List.mem_cons_self _ _), by decide⟩

/--
**C3 (amended).** For every list of handle settlements produced by
`executeAll(tasks, concurrency)`: if every task succeeds, the aggregate
settles only after every handle has settled and fulfills with the list of all
results in submission order; if at least one task fails, the aggregate rejects
with the first observed (earliest-settling) failure, which may be before the
remaining handles settle — the remaining tasks still run to completion, each
handle settling individually regardless of the aggregate.
-/
theorem PromiseJs.promiseAll_spec {E A : Type} (hs : List (Nat × Except E A)) :
    ((∀ p ∈ hs, ∃ a : A, p.2 = Except.ok a) →
        (∀ p ∈ hs, p.1 ≤ (PromiseJs.promiseAll hs).1) ∧
          (PromiseJs.promiseAll hs).2 =
            Except.ok (hs.filterMap fun h => h.2.toOption)) ∧
      ∀ t e, PromiseJs.firstFailure hs = some (t, e) →
        PromiseJs.promiseAll hs = (t, Except.error e) ∧
          (t, Except.error e) ∈ hs ∧
          ∀ t' e', (t', Except.error e') ∈ hs → t ≤ t' := by
  constructor
  · intro hall
    have hnone := PromiseJs.firstFailure_eq_none hs hall
    rw [PromiseJs.promiseAll, hnone]
    exact ⟨PromiseJs.le_lastSettleTime hs, rfl⟩
  · intro t e h
    rw [PromiseJs.promiseAll, h]
    exact ⟨rfl, PromiseJs.firstFailure_spec hs t e h⟩

/--
Witness for the amended C3: a run whose second handle rejects earliest (time
1) makes the aggregate reject with that failure at time 1; an all-success run
fulfills with both values and after the last settlement (time 7 ≥ 2).
-/
theorem PromiseJs.promiseAll_spec_witness :
    PromiseJs.promiseAll
        [(3, Except.error (2 : Nat)), (1, Except.error 9), (5, Except.ok (4 : Nat))] =
      (1, Except.error 9) ∧
      (PromiseJs.promiseAll
          [(2, Except.ok (4 : Nat)), (7, (Except.ok 5 : Except Nat Nat))]).2 =
        Except.ok [4, 5] ∧
      (2 : Nat) ≤ (PromiseJs.promiseAll
        [(2, Except.ok (4 : Nat)), (7, (Except.ok 5 : Except Nat Nat))]).1 := by
  have hok : ∀ p ∈ [((2 : Nat), (Except.ok 4 : Except Nat Nat)),
      ((7 : Nat), (Except.ok 5 : Except Nat Nat))], ∃ a : Nat, p.2 = Except.ok a := by
    intro p hp
    rcases List.mem_cons.mp hp with hp | hp
    · subst hp
      exact ⟨4, rfl⟩
    · rcases List.mem_cons.mp hp with hp | hp
      · subst hp
        exact ⟨5, rfl⟩
      · simp at hp
  have h2 := (PromiseJs.promiseAll_spec
    [((2 : Nat), (Except.ok 4 : Except Nat Nat)),
     ((7 : Nat), (Except.ok 5 : Except Nat Nat))]).1 hok
  refine ⟨((PromiseJs.promiseAll_spec
    [(3, Except.error (2 : Nat)), (1, Except.error 9), (5, Except.ok (4 : Nat))]).2
      1 9 (by decide)).1, h2.2, h2.1 (2, Except.ok 4) (List.mem_cons_self _ _)⟩
